import Mathlib

/-!
Verification of the text-selection logic of the job-genie repository
(`src/static/script.js`): the keyword extractor `extractKeywords`, the
section selector `processResume` / `prioritizeSections`, and the plain-text
to Markdown converter `convertToMarkdown`.

Strings are modelled as `List Char` (one entry per UTF-16-ish code point;
all the repository's logic is character-wise, so this matches the
JavaScript semantics on the inputs of interest).  Each definition below is
a direct transcription of the corresponding JavaScript function; the
JavaScript standard-library calls used by the code (`String.prototype.split`,
`includes`, `match` with a literal global case-insensitive pattern, `trim`,
`toLowerCase`, stable `Array.prototype.sort`, object key enumeration order)
are modelled by the helper functions, each documented at its definition.
-/

/-- The set of whitespace characters matched by the JavaScript `\s` regex
class and stripped by `String.prototype.trim`. -/
def jsWs (c : Char) : Bool :=
  c == ' ' || c == '\t' || c == '\n' || c == '\r' || c == '\x0b' || c == '\x0c' ||
  c == '\u00a0' || c == '\u1680' || (0x2000 ≤ c.toNat && c.toNat ≤ 0x200a) ||
  c == '\u2028' || c == '\u2029' || c == '\u202f' || c == '\u205f' ||
  c == '\u3000' || c == '\ufeff'

/-- Character-wise lowercasing, modelling `String.prototype.toLowerCase`
(restricted, like `Char.toLower`, to the basic-latin letters that the
repository's data uses). -/
def lowerL (l : List Char) : List Char :=
  l.map Char.toLower

/-- Worker for `splitOnL`, modelling `String.prototype.split` with a
non-empty string separator: scanning left to right, each non-overlapping
occurrence of the separator ends the current field.  `skip` counts
separator characters still to be consumed after a match was recognised. -/
def splitGo (sep : List Char) : List Char → Nat → List (List Char)
  | [], _ => [[]]
  | _ :: rest, skip + 1 => splitGo sep rest skip
  | c :: rest, 0 =>
    if !sep.isEmpty && sep.isPrefixOf (c :: rest) then
      [] :: splitGo sep rest (sep.length - 1)
    else
      match splitGo sep rest 0 with
      | [] => [[c]]
      | w :: ws => (c :: w) :: ws

/-- `String.prototype.split` with a non-empty string separator. -/
def splitOnL (sep l : List Char) : List (List Char) :=
  splitGo sep l 0

/-- `Array.prototype.join` with a string separator. -/
def joinSep (sep : List Char) : List (List Char) → List Char
  | [] => []
  | [s] => s
  | s :: s2 :: rest => s ++ sep ++ joinSep sep (s2 :: rest)

/-- The punctuation class removed by `extractKeywords`, in source order:
the regex `[.,\/#!$%\^&\*;:{}=\-_`~()]` of `script.js`. -/
def punctChars : List Char :=
  ['.', ',', '/', '\x23', '!', '$', '%', '\x5e', '&', '*', ';', ':',
   '\x7b', '\x7d', '=', '-', '_', '\x60', '\x7e', '(', ')']

/-- Worker for `collapseWs`, modelling `.replace(/\s{2,}/g, ' ')`: every
maximal run of two or more whitespace characters becomes a single space,
while an isolated whitespace character is kept as it is.  `inRun` records
whether the previous character belonged to a run already replaced. -/
def collapseWsGo (inRun : Bool) : List Char → List Char
  | [] => []
  | c :: rest =>
    if jsWs c then
      if inRun then collapseWsGo true rest
      else
        match rest with
        | [] => [c]
        | d :: _ =>
          if jsWs d then ' ' :: collapseWsGo true rest
          else c :: collapseWsGo false rest
    else c :: collapseWsGo false rest

/-- `.replace(/\s{2,}/g, ' ')` of `extractKeywords`. -/
def collapseWs (l : List Char) : List Char :=
  collapseWsGo false l

/-- The fixed stop-word list `commonWords` of `extractKeywords`. -/
def commonWords : List (List Char) :=
  ["and", "the", "to", "of", "a", "in", "for", "is", "on", "that", "by",
   "this", "with", "i", "you", "it", "not", "or", "be", "are", "from",
   "at", "as", "your", "have", "more", "an", "was"].map String.data

/-- The processed text of `extractKeywords`: lowercased input with the
punctuation class deleted and whitespace runs collapsed. -/
def processedText (jobDescription : List Char) : List Char :=
  collapseWs ((lowerL jobDescription).filter (fun c => !punctChars.contains c))

/-- The token stream `words` of `extractKeywords`: the processed text split
on single spaces. -/
def wordsOf (jobDescription : List Char) : List (List Char) :=
  splitOnL [' '] (processedText jobDescription)

/-- The `filteredWords` of `extractKeywords`: tokens of length greater than
three that are not stop words. -/
def filteredWords (jobDescription : List Char) : List (List Char) :=
  (wordsOf jobDescription).filter
    (fun word => decide (3 < word.length) && !commonWords.contains word)

/-- The frequency of a token in the filtered token stream (the value stored
in the `wordCount` object). -/
def wordFreq (jobDescription : List Char) (w : List Char) : Nat :=
  (filteredWords jobDescription).count w

/-- Distinct elements of a list in order of first occurrence: the insertion
order of the keys of the `wordCount` object. -/
def dedupFirst : List (List Char) → List (List Char)
  | [] => []
  | a :: l => a :: (dedupFirst l).filter (fun b => decide (b ≠ a))

/-- Numeric value of an all-digit token. -/
def digitsToNat (l : List Char) : Nat :=
  l.foldl (fun n c => n * 10 + (c.toNat - 48)) 0

/-- Whether a token is a canonical array-index string in the sense of the
ECMAScript object model: a non-empty all-digit numeral without a leading
zero (except `0` itself) whose value is below `2 ^ 32 - 1`.  Such property
keys are enumerated before all other keys, in ascending numeric order. -/
def isArrayIndex (w : List Char) : Bool :=
  !w.isEmpty && w.all Char.isDigit &&
    (w == ['0'] || w.head? != some '0') && digitsToNat w < 4294967295

/-- Stable insertion (ascending by `key`) used to model the ascending
numeric enumeration of array-index property keys. -/
def insertAsc (key : α → Nat) (a : α) : List α → List α
  | [] => [a]
  | b :: l => if key a ≤ key b then a :: b :: l else b :: insertAsc key a l

/-- Sort ascending by `key` (stable). -/
def sortAsc (key : α → Nat) : List α → List α
  | [] => []
  | a :: l => insertAsc key a (sortAsc key l)

/-- The keys of the `wordCount` object in the order produced by
`Object.entries`: canonical array-index tokens first, in ascending numeric
order, then the remaining tokens in first-insertion order. -/
def objectKeys (jobDescription : List Char) : List (List Char) :=
  let keys := dedupFirst (filteredWords jobDescription)
  sortAsc digitsToNat (keys.filter (fun w => isArrayIndex w)) ++
    keys.filter (fun w => !isArrayIndex w)

/-- Stable insertion (descending by `key`): an element is placed before the
first element whose key is not larger, so equal keys keep their order. -/
def insertDesc (key : α → Nat) (a : α) : List α → List α
  | [] => [a]
  | b :: l => if key b ≤ key a then a :: b :: l else b :: insertDesc key a l

/-- Stable sort, descending by `key`: the result of the ECMAScript stable
`Array.prototype.sort` under the comparator `(a, b) => key b - key a`. -/
def sortDesc (key : α → Nat) : List α → List α
  | [] => []
  | a :: l => insertDesc key a (sortDesc key l)

/-- `extractKeywords` of `script.js`: lowercase, strip punctuation,
collapse whitespace runs, split on spaces, drop short and common words,
count frequencies, sort the `(word, count)` entries by descending count
with the stable sort, keep the first fifteen words. -/
def extractKeywords (jobDescription : List Char) : List (List Char) :=
  let wordCountEntries :=
    (objectKeys jobDescription).map
      (fun w => (w, wordFreq jobDescription w))
  ((sortDesc (fun e => e.2) wordCountEntries).take 15).map (fun e => e.1)

/-- Worker for `matchCountCI`: the number of matches of the literal
(already lowercased, non-empty) pattern `kw` found by the left-to-right,
non-overlapping scan of a global regex.  `skip` counts characters of a
just-recognised match still to be stepped over. -/
def mcGo (kw : List Char) : Nat → List Char → Nat
  | _, [] => 0
  | skip + 1, _ :: rest => mcGo kw skip rest
  | 0, c :: rest =>
    if kw.isPrefixOf (c :: rest) then 1 + mcGo kw (kw.length - 1) rest
    else mcGo kw 0 rest

/-- The number of matches returned by
`section.match(new RegExp(keyword, 'gi'))` for a keyword that contains no
regex metacharacter: case-insensitive, left-to-right, non-overlapping
occurrences of the literal keyword (an empty pattern matches once at every
position, including the end). -/
def matchCountCI (keyword hay : List Char) : Nat :=
  if keyword.isEmpty then hay.length + 1
  else mcGo (lowerL keyword) 0 (lowerL hay)

/-- The score of a section in `prioritizeSections`: starting from zero,
each keyword adds the number of matches of its global case-insensitive
pattern in the section. -/
def scoreSection (keywords : List (List Char)) (sectionText : List Char) : Nat :=
  keywords.foldl (fun score keyword => score + matchCountCI keyword sectionText) 0

/-- The `scoredSections` array of `prioritizeSections`. -/
def scoredSections (sections keywords : List (List Char)) :
    List (List Char × Nat) :=
  sections.map (fun s => (s, scoreSection keywords s))

/-- The scored sections after `scoredSections.sort((a, b) => b.score - a.score)`,
projected back to their text. -/
def sortedSections (sections keywords : List (List Char)) : List (List Char) :=
  (sortDesc (fun e => e.2) (scoredSections sections keywords)).map (fun e => e.1)

/-- The selection loop of `prioritizeSections`: walk the sorted sections,
accept while `totalLength + section.length <= maxLength` (adding two to the
running total for the separator), accept a single section unconditionally
if none is selected yet, stop at the first rejection. -/
def selectLoop (maxLength : Nat) :
    List (List Char) → Nat → List (List Char) → List (List Char)
  | [], _, selected => selected.reverse
  | s :: rest, totalLength, selected =>
    if totalLength + s.length ≤ maxLength then
      selectLoop maxLength rest (totalLength + s.length + 2) (s :: selected)
    else if selected.isEmpty then (s :: selected).reverse
    else selected.reverse

/-- `prioritizeSections` of `script.js`. -/
def prioritizeSections (sections keywords : List (List Char)) :
    List (List Char) :=
  selectLoop 1500 (sortedSections sections keywords) 0 []

/-- `String.prototype.includes`: whether `needle` occurs as a contiguous
substring of the list. -/
def includesL (needle : List Char) : List Char → Bool
  | [] => needle.isEmpty
  | c :: rest => needle.isPrefixOf (c :: rest) || includesL needle rest

/-- The filter of `processResume`: the sections of the résumé (split on the
blank-line separator) that contain some keyword case-insensitively. -/
def relevantSectionsOf (resume : List Char) (jobKeywords : List (List Char)) :
    List (List Char) :=
  (splitOnL ['\n', '\n'] resume).filter
    (fun s => jobKeywords.any (fun keyword =>
      includesL (lowerL keyword) (lowerL s)))

/-- The section-selection pipeline of `processResume`: its keyword filter
followed by `prioritizeSections`, for an arbitrary keyword list. -/
def selectSections (resume : List Char) (jobKeywords : List (List Char)) :
    List (List Char) :=
  prioritizeSections (relevantSectionsOf resume jobKeywords) jobKeywords

/-- `processResume` of `script.js` (`src/static/script.js` version, whose
header is the empty string): the selected sections joined by blank lines. -/
def processResume (resume jobDescription : List Char) : List Char :=
  joinSep ['\n', '\n'] (selectSections resume (extractKeywords jobDescription))

/-- `String.prototype.trim`. -/
def trimL (l : List Char) : List Char :=
  ((l.dropWhile jsWs).reverse.dropWhile jsWs).reverse

/-- Character-wise uppercasing, modelling `String.prototype.toUpperCase`
on the basic-latin letters. -/
def upperL (l : List Char) : List Char :=
  l.map Char.toUpper

/-- The Markdown text emitted by `convertToMarkdown` for the section at
split position `i`: empty sections are skipped; an all-caps section becomes
a level-1 heading at position zero and a level-2 heading elsewhere; a
section starting with a dash-space is kept as a list; a section containing
a colon-newline is split into a level-3 heading and a body; anything else
is a plain paragraph.  The section is trimmed first, and every emitted
piece ends with a blank line. -/
def mdChunk (i : Nat) (rawSection : List Char) : List Char :=
  let s := trimL rawSection
  if s.isEmpty then []
  else if upperL s == s && !s.isEmpty then
    (if i == 0 then '#' :: ' ' :: s else '#' :: '#' :: ' ' :: s) ++ ['\n', '\n']
  else if ['-', ' '].isPrefixOf s then s ++ ['\n', '\n']
  else if includesL [':', '\n'] s then
    match splitOnL [':', '\n'] s with
    | [] => []
    | title :: content =>
      ('#' :: '#' :: '#' :: ' ' :: trimL title) ++ ['\n', '\n'] ++
        joinSep [':', '\n'] content ++ ['\n', '\n']
  else s ++ ['\n', '\n']

/-- `convertToMarkdown` of `script.js`: the concatenation of the Markdown
chunks of the blank-line separated sections of the text. -/
def convertToMarkdown (text : List Char) : List Char :=
  (((splitOnL ['\n', '\n'] text).enum).map (fun p => mdChunk p.1 p.2)).flatten

/-- Per the words of the specification: the number of case-insensitive
occurrences of `keyword` as a substring of `hay`, counting every starting
position (so overlapping occurrences are all counted).  Used to compare
the code's regex-based count against the specified substring count. -/
def substringOccurrencesCI (keyword hay : List Char) : Nat :=
  ((List.range (hay.length + 1)).filter
    (fun i => (lowerL keyword).isPrefixOf ((lowerL hay).drop i))).length

theorem insertDesc_perm (key : α → Nat) (a : α) :
    ∀ l : List α, List.Perm (insertDesc key a l) (a :: l)
  | [] => List.Perm.refl _
  | b :: l => by
    unfold insertDesc
    split
    · exact List.Perm.refl _
    · exact List.Perm.trans ((insertDesc_perm key a l).cons b) (List.Perm.swap a b l)

theorem sortDesc_perm (key : α → Nat) :
    ∀ l : List α, List.Perm (sortDesc key l) l
  | [] => List.Perm.refl _
  | a :: l => List.Perm.trans (insertDesc_perm key a (sortDesc key l))
      ((sortDesc_perm key l).cons a)

theorem mem_insertDesc (key : α → Nat) (a x : α) (l : List α) :
    x ∈ insertDesc key a l ↔ x = a ∨ x ∈ l := by
  rw [(insertDesc_perm key a l).mem_iff, List.mem_cons]

theorem pairwise_insertDesc (key : α → Nat) (a : α) :
    ∀ l : List α, l.Pairwise (fun x y => key y ≤ key x) →
      (insertDesc key a l).Pairwise (fun x y => key y ≤ key x)
  | [], _ => List.pairwise_singleton _ a
  | b :: l, h => by
    rw [List.pairwise_cons] at h
    unfold insertDesc
    split
    next hba =>
      rw [List.pairwise_cons]
      refine ⟨fun x hx => ?_, List.pairwise_cons.mpr h⟩
      rcases List.mem_cons.mp hx with rfl | hx
      · exact hba
      · exact Nat.le_trans (h.1 x hx) hba
    next hba =>
      rw [List.pairwise_cons]
      refine ⟨fun x hx => ?_, pairwise_insertDesc key a l h.2⟩
      rcases (mem_insertDesc key a x l).mp hx with rfl | hx
      · exact Nat.le_of_lt (Nat.lt_of_not_le hba)
      · exact h.1 x hx

theorem pairwise_sortDesc (key : α → Nat) :
    ∀ l : List α, (sortDesc key l).Pairwise (fun x y => key y ≤ key x)
  | [] => List.Pairwise.nil
  | a :: l => pairwise_insertDesc key a (sortDesc key l) (pairwise_sortDesc key l)

theorem filter_insertDesc (key : α → Nat) (c : Nat) (a : α) :
    ∀ l : List α,
      (insertDesc key a l).filter (fun x => key x == c) =
        if key a == c then a :: l.filter (fun x => key x == c)
        else l.filter (fun x => key x == c)
  | [] => by
    simp only [insertDesc, List.filter]
    split <;> simp_all
  | b :: l => by
    unfold insertDesc
    split
    next hba =>
      by_cases hb : key b == c <;> by_cases ha : key a == c <;>
        simp [List.filter_cons, hb, ha]
    next hba =>
      have hab : key a < key b := Nat.lt_of_not_le hba
      rw [List.filter_cons, filter_insertDesc key c a l, List.filter_cons]
      by_cases ha : key a = c
      · have hb : ¬ key b = c := by omega
        simp [ha, hb]
      · simp [ha]

theorem sortDesc_filter_stable (key : α → Nat) (c : Nat) :
    ∀ l : List α,
      (sortDesc key l).filter (fun x => key x == c) =
        l.filter (fun x => key x == c)
  | [] => rfl
  | a :: l => by
    rw [sortDesc, filter_insertDesc, sortDesc_filter_stable key c l,
      List.filter_cons]

theorem insertAsc_perm (key : α → Nat) (a : α) :
    ∀ l : List α, List.Perm (insertAsc key a l) (a :: l)
  | [] => List.Perm.refl _
  | b :: l => by
    unfold insertAsc
    split
    · exact List.Perm.refl _
    · exact List.Perm.trans ((insertAsc_perm key a l).cons b) (List.Perm.swap a b l)

theorem sortAsc_perm (key : α → Nat) :
    ∀ l : List α, List.Perm (sortAsc key l) l
  | [] => List.Perm.refl _
  | a :: l => List.Perm.trans (insertAsc_perm key a (sortAsc key l))
      ((sortAsc_perm key l).cons a)

theorem mem_sortDesc_pairs (f : β → Nat) (l : List β) :
    ∀ p ∈ sortDesc (fun e : β × Nat => e.2) (l.map (fun w => (w, f w))),
      p.2 = f p.1 := by
  intro p hp
  have hp' := (sortDesc_perm (fun e : β × Nat => e.2) _).mem_iff.mp hp
  obtain ⟨w, _, rfl⟩ := List.mem_map.mp hp'
  rfl

theorem sortDesc_pairs_pairwise (f : β → Nat) (l : List β) :
    ((sortDesc (fun e : β × Nat => e.2) (l.map (fun w => (w, f w)))).map
        (fun e => e.1)).Pairwise (fun a b => f b ≤ f a) := by
  apply List.pairwise_map.mpr
  apply List.Pairwise.imp_of_mem ?_ (pairwise_sortDesc (fun e : β × Nat => e.2) _)
  intro p q hp hq h
  rw [mem_sortDesc_pairs f l p hp, mem_sortDesc_pairs f l q hq] at h
  exact h

theorem sortDesc_pairs_filter (f : β → Nat) (l : List β) (c : Nat) :
    ((sortDesc (fun e : β × Nat => e.2) (l.map (fun w => (w, f w)))).map
        (fun e => e.1)).filter (fun w => f w == c) =
      l.filter (fun w => f w == c) := by
  rw [List.filter_map]
  have h1 : (sortDesc (fun e : β × Nat => e.2) (l.map (fun w => (w, f w)))).filter
      ((fun w => f w == c) ∘ (fun e : β × Nat => e.1)) =
      (sortDesc (fun e : β × Nat => e.2) (l.map (fun w => (w, f w)))).filter
        (fun e => e.2 == c) := by
    apply List.filter_congr
    intro p hp
    simp [mem_sortDesc_pairs f l p hp]
  rw [h1, sortDesc_filter_stable]
  have h2 : (l.map (fun w => (w, f w))).filter (fun e => e.2 == c) =
      (l.filter (fun w => f w == c)).map (fun w => (w, f w)) := by
    rw [List.filter_map]
    rfl
  rw [h2, List.map_map]
  have h3 : ((fun e : β × Nat => e.1) ∘ fun w => (w, f w)) = id := rfl
  rw [h3, List.map_id]

theorem selectLoop_shape (maxLength : Nat) :
    ∀ (rest : List (List Char)) (total : Nat) (sel : List (List Char)),
      ∃ k, selectLoop maxLength rest total sel = sel.reverse ++ rest.take k
  | [], total, sel => ⟨0, by simp [selectLoop]⟩
  | s :: rest, total, sel => by
    unfold selectLoop
    split
    next h =>
      obtain ⟨k, hk⟩ :=
        selectLoop_shape maxLength rest (total + s.length + 2) (s :: sel)
      exact ⟨k + 1, by simp [hk, List.take_succ_cons]⟩
    next h =>
      split
      · exact ⟨1, by simp⟩
      · exact ⟨0, by simp⟩

theorem joinSep_length_append (sep s : List Char) :
    ∀ l : List (List Char), l ≠ [] →
      (joinSep sep (l ++ [s])).length =
        (joinSep sep l).length + sep.length + s.length
  | [], h => absurd rfl h
  | [a], _ => by simp [joinSep]; omega
  | a :: b :: l, _ => by
    have ih := joinSep_length_append sep s (b :: l) (by simp)
    show (joinSep sep (a :: ((b :: l) ++ [s]))).length = _
    rw [List.cons_append, joinSep, ← List.cons_append]
    simp only [joinSep, List.length_append] at ih ⊢
    omega

theorem selectLoop_budget (maxLength : Nat) :
    ∀ (rest : List (List Char)) (total : Nat) (sel : List (List Char)),
      sel ≠ [] →
      total = (joinSep ['\n', '\n'] sel.reverse).length + 2 →
      total ≤ maxLength + 2 →
      (joinSep ['\n', '\n'] (selectLoop maxLength rest total sel)).length ≤
        maxLength
  | [], total, sel, _, htot, hle => by
    rw [selectLoop]
    omega
  | s :: rest, total, sel, hsel, htot, hle => by
    unfold selectLoop
    split
    next h =>
      apply selectLoop_budget maxLength rest _ (s :: sel) (by simp)
      · have hrev : sel.reverse ≠ [] := by
          simpa using hsel
        rw [List.reverse_cons, joinSep_length_append _ _ _ hrev]
        simp
        omega
      · omega
    next h =>
      have : sel.isEmpty = false := by
        simpa using hsel
      rw [if_neg (by simp [this])]
      omega

theorem sortedSections_perm (sections keywords : List (List Char)) :
    List.Perm (sortedSections sections keywords) sections := by
  have h := (sortDesc_perm (fun e : List Char × Nat => e.2)
      (scoredSections sections keywords)).map (fun e : List Char × Nat => e.1)
  refine h.trans ?_
  rw [scoredSections, List.map_map]
  have h3 : ((fun e : List Char × Nat => e.1) ∘
      fun s => (s, scoreSection keywords s)) = id := rfl
  rw [h3, List.map_id]

theorem prioritizeSections_take (sections keywords : List (List Char)) :
    ∃ k, prioritizeSections sections keywords =
      (sortedSections sections keywords).take k := by
  obtain ⟨k, hk⟩ :=
    selectLoop_shape 1500 (sortedSections sections keywords) 0 []
  exact ⟨k, by simpa [prioritizeSections] using hk⟩

/-- C1: for every résumé/keyword-list pair, the sections returned by
`prioritizeSections` satisfy the 1500-character budget: the length of the
result joined with the two-character separator is at most 1500, except in
the single case where the highest-ranked candidate alone exceeds 1500
characters, in which case exactly that one section is returned. -/
theorem prioritizeSections_budget (sections keywords : List (List Char)) :
    (joinSep ['\n', '\n'] (prioritizeSections sections keywords)).length ≤ 1500 ∨
      ∃ s, (sortedSections sections keywords).head? = some s ∧
        1500 < s.length ∧ prioritizeSections sections keywords = [s] := by
  rw [prioritizeSections]
  cases hs : sortedSections sections keywords with
  | nil => left; simp [selectLoop, joinSep]
  | cons s rest =>
    by_cases hlen : s.length ≤ 1500
    · left
      show (joinSep ['\n', '\n'] (selectLoop 1500 (s :: rest) 0 [])).length ≤ 1500
      rw [selectLoop, if_pos (by omega)]
      apply selectLoop_budget 1500 rest (0 + s.length + 2) [s] (by simp)
      · simp [joinSep]
      · omega
    · right
      refine ⟨s, rfl, by omega, ?_⟩
      show selectLoop 1500 (s :: rest) 0 [] = [s]
      rw [selectLoop, if_neg (by omega)]
      simp

/-- C3: whenever the filtered candidate pool of `processResume` is
non-empty, the section selector returns a non-empty sequence; in
particular, when the highest-scoring candidate alone exceeds 1500
characters it is accepted anyway and selection stops with exactly that
section. -/
theorem selectSections_at_least_one (resume : List Char)
    (ks : List (List Char)) (h : relevantSectionsOf resume ks ≠ []) :
    selectSections resume ks ≠ [] ∧
      ∀ s rest,
        sortedSections (relevantSectionsOf resume ks) ks = s :: rest →
        1500 < s.length → selectSections resume ks = [s] := by
  constructor
  · intro hempty
    rw [selectSections, prioritizeSections] at hempty
    cases hs : sortedSections (relevantSectionsOf resume ks) ks with
    | nil =>
      have hperm := sortedSections_perm (relevantSectionsOf resume ks) ks
      rw [hs] at hperm
      exact h hperm.symm.eq_nil
    | cons s rest =>
      rw [hs, selectLoop] at hempty
      split at hempty
      · obtain ⟨k, hk⟩ := selectLoop_shape 1500 rest (0 + s.length + 2) [s]
        rw [hk] at hempty
        simp at hempty
      · simp at hempty
  · intro s rest hs hlen
    rw [selectSections, prioritizeSections, hs, selectLoop,
      if_neg (by omega)]
    simp

/-- C2: every section selected by the pipeline of `processResume` contains
at least one keyword of the list as a case-insensitive substring; with an
empty keyword list, or when no section of the résumé contains any keyword,
the result is empty, with no fallback to unfiltered content. -/
theorem selectSections_keyword_match (resume : List Char)
    (ks : List (List Char)) :
    (∀ s, s ∈ selectSections resume ks →
        ∃ k, k ∈ ks ∧ includesL (lowerL k) (lowerL s) = true) ∧
      selectSections resume [] = [] ∧
      (relevantSectionsOf resume ks = [] → selectSections resume ks = []) := by
  refine ⟨?_, ?_, ?_⟩
  · intro s hs
    rw [selectSections, prioritizeSections] at hs
    obtain ⟨k, hk⟩ :=
      selectLoop_shape 1500 (sortedSections (relevantSectionsOf resume ks) ks) 0 []
    rw [hk] at hs
    simp only [List.reverse_nil, List.nil_append] at hs
    have hs2 : s ∈ sortedSections (relevantSectionsOf resume ks) ks :=
      List.take_subset k _ hs
    have hs3 : s ∈ relevantSectionsOf resume ks :=
      (sortedSections_perm _ _).subset hs2
    have hany := (List.mem_filter.mp hs3).2
    obtain ⟨k', hk', hinc⟩ := List.any_eq_true.mp hany
    exact ⟨k', hk', hinc⟩
  · rw [selectSections]
    have hrel : relevantSectionsOf resume [] = [] := by
      rw [relevantSectionsOf]
      simp
    rw [hrel]
    rfl
  · intro hrel
    rw [selectSections, hrel]
    rfl

/-- C10: every string produced by the section-selection pipeline is
textually identical to one of the sections obtained by splitting the
résumé on two consecutive newline characters, and the output is a
sub-multiset of that split. -/
theorem selectSections_submultiset (resume : List Char)
    (ks : List (List Char)) :
    (∀ s, s ∈ selectSections resume ks → s ∈ splitOnL ['\n', '\n'] resume) ∧
      ∀ s, (selectSections resume ks).count s ≤
        (splitOnL ['\n', '\n'] resume).count s := by
  obtain ⟨k, hk⟩ := prioritizeSections_take (relevantSectionsOf resume ks) ks
  have hsel : selectSections resume ks =
      (sortedSections (relevantSectionsOf resume ks) ks).take k := hk
  constructor
  · intro s hs
    rw [hsel] at hs
    have hs2 := (sortedSections_perm _ _).subset (List.take_subset k _ hs)
    exact (List.filter_sublist _).subset hs2
  · intro s
    rw [hsel]
    calc ((sortedSections (relevantSectionsOf resume ks) ks).take k).count s ≤
        (sortedSections (relevantSectionsOf resume ks) ks).count s :=
          (List.take_sublist k _).count_le s
      _ = (relevantSectionsOf resume ks).count s := by
          rw [List.count_eq_countP, List.count_eq_countP]
          exact (sortedSections_perm _ _).countP_eq _
      _ ≤ (splitOnL ['\n', '\n'] resume).count s :=
          (List.filter_sublist _).count_le s

/-- C7: the output of `prioritizeSections` is ordered by non-increasing
score, equal-score sections keep the order produced by the scoring step
(their subsequence of the output is a prefix of their subsequence of the
input), and the output is not in general in original document order, as
the final concrete instance shows. -/
theorem prioritizeSections_ordering :
    (∀ sections ks : List (List Char),
        (prioritizeSections sections ks).Pairwise
          (fun a b => scoreSection ks b ≤ scoreSection ks a)) ∧
      (∀ (sections ks : List (List Char)) (c : Nat),
        (prioritizeSections sections ks).filter
            (fun s => scoreSection ks s == c) <+:
          sections.filter (fun s => scoreSection ks s == c)) ∧
      prioritizeSections
          [("abcd efgh").data, ("zzzz").data, ("abcd abcd").data]
          [("abcd").data] =
        [("abcd abcd").data, ("abcd efgh").data, ("zzzz").data] := by
  refine ⟨?_, ?_, by decide⟩
  · intro sections ks
    obtain ⟨k, hk⟩ := prioritizeSections_take sections ks
    rw [hk]
    apply List.Pairwise.sublist (List.take_sublist k _)
    exact sortDesc_pairs_pairwise (scoreSection ks) sections
  · intro sections ks c
    obtain ⟨k, hk⟩ := prioritizeSections_take sections ks
    rw [hk]
    have htp : (sortedSections sections ks).take k <+:
        sortedSections sections ks :=
      ⟨(sortedSections sections ks).drop k,
        List.take_append_drop k (sortedSections sections ks)⟩
    have hpref : ((sortedSections sections ks).take k).filter
        (fun s => scoreSection ks s == c) <+:
        (sortedSections sections ks).filter
          (fun s => scoreSection ks s == c) :=
      htp.filter _
    have hstable : (sortedSections sections ks).filter
        (fun s => scoreSection ks s == c) =
        sections.filter (fun s => scoreSection ks s == c) :=
      sortDesc_pairs_filter (scoreSection ks) sections c
    rw [hstable] at hpref
    exact hpref

theorem foldl_add_map_sum (f : β → Nat) :
    ∀ (l : List β) (n : Nat),
      l.foldl (fun acc k => acc + f k) n = n + (l.map f).sum
  | [], n => by simp
  | b :: l, n => by
    rw [List.foldl_cons, foldl_add_map_sum f l (n + f b)]
    simp
    omega

theorem mcGo_pos_iff (kw : List Char) (hkw : kw ≠ []) :
    ∀ l : List Char,
      0 < mcGo kw 0 l ↔ ∃ i, kw.isPrefixOf (l.drop i) = true
  | [] => by
    constructor
    · intro h
      simp [mcGo] at h
    · rintro ⟨i, hi⟩
      rw [List.drop_nil] at hi
      cases kw with
      | nil => exact absurd rfl hkw
      | cons a as => simp [List.isPrefixOf] at hi
  | c :: rest => by
    rw [show mcGo kw 0 (c :: rest) =
        if kw.isPrefixOf (c :: rest) then 1 + mcGo kw (kw.length - 1) rest
        else mcGo kw 0 rest from rfl]
    split
    next hpre =>
      constructor
      · intro _
        exact ⟨0, by simpa using hpre⟩
      · intro _
        omega
    next hpre =>
      rw [mcGo_pos_iff kw hkw rest]
      constructor
      · rintro ⟨i, hi⟩
        exact ⟨i + 1, by rwa [List.drop_succ_cons]⟩
      · rintro ⟨i, hi⟩
        cases i with
        | zero =>
          rw [List.drop_zero] at hi
          exact absurd hi hpre
        | succ j => exact ⟨j, by rwa [List.drop_succ_cons] at hi⟩

theorem substringOccurrencesCI_pos_iff (kw hay : List Char)
    (hkw : lowerL kw ≠ []) :
    0 < substringOccurrencesCI kw hay ↔
      ∃ i, (lowerL kw).isPrefixOf ((lowerL hay).drop i) = true := by
  rw [substringOccurrencesCI, List.length_pos_iff_exists_mem]
  constructor
  · rintro ⟨i, hi⟩
    have := List.mem_filter.mp hi
    exact ⟨i, this.2⟩
  · rintro ⟨i, hi⟩
    by_cases hlt : i < hay.length + 1
    · exact ⟨i, List.mem_filter.mpr ⟨List.mem_range.mpr hlt, hi⟩⟩
    · exfalso
      have hdrop : (lowerL hay).drop i = [] := by
        apply List.drop_eq_nil_of_le
        rw [lowerL, List.length_map]
        omega
      rw [hdrop] at hi
      cases hl : lowerL kw with
      | nil => exact hkw hl
      | cons a as =>
        rw [hl] at hi
        simp [List.isPrefixOf] at hi

theorem matchCountCI_pos_iff (k s : List Char) :
    0 < matchCountCI k s ↔ 0 < substringOccurrencesCI k s := by
  by_cases hk : k = []
  · subst hk
    constructor
    · intro _
      simp [substringOccurrencesCI, lowerL]
    · intro _
      simp [matchCountCI]
  · have hkl : lowerL k ≠ [] := by
      cases k with
      | nil => exact absurd rfl hk
      | cons a as => simp [lowerL]
    rw [matchCountCI, if_neg (by simpa using hk),
      mcGo_pos_iff (lowerL k) hkl (lowerL s)]
    exact (substringOccurrencesCI_pos_iff k s hkl).symm

/-- C5 counterexample: for the section `aaaaa` and the single keyword
`aaaa`, the score computed by the scoring step of `prioritizeSections`
is 1, whereas the sum over the keywords of the number of case-insensitive
occurrences of the keyword as a substring of the section (counting every
starting position) is 2: the global regex scan does not count overlapping
occurrences. -/
theorem scoreSection_overlap_counterexample :
    scoreSection [("aaaa").data] (("aaaaa").data) = 1 ∧
      ([("aaaa").data].map
        (fun k => substringOccurrencesCI k (("aaaaa").data))).sum = 2 := by
  constructor
  · decide
  · decide

/-- C5 amended: the score assigned to a section by the scoring step of
`prioritizeSections` equals the sum, over all keywords in the list, of the
number of case-insensitive occurrences of the keyword counted by the
left-to-right non-overlapping scan of the global regex; such a count is
positive exactly when the keyword occurs somewhere in the section as a
case-insensitive substring. -/
theorem scoreSection_eq_sum_matchCounts (ks : List (List Char))
    (s : List Char) :
    scoreSection ks s = (ks.map (fun k => matchCountCI k s)).sum ∧
      ∀ k, (0 < matchCountCI k s ↔ 0 < substringOccurrencesCI k s) := by
  constructor
  · rw [scoreSection, foldl_add_map_sum (fun k => matchCountCI k s) ks 0]
    omega
  · intro k
    exact matchCountCI_pos_iff k s

theorem toNat_ofNat_of_lt {m : Nat} (h : m < 0xd800) :
    (Char.ofNat m).toNat = m := by
  rw [Char.ofNat, dif_pos (Or.inl h)]
  rfl

theorem toLower_toLower (c : Char) :
    Char.toLower (Char.toLower c) = Char.toLower c := by
  by_cases h : c.toNat ≥ 65 ∧ c.toNat ≤ 90
  · have h1 : Char.toLower c = Char.ofNat (c.toNat + 32) := by
      simp only [Char.toLower]
      rw [if_pos h]
    have hval : (Char.ofNat (c.toNat + 32)).toNat = c.toNat + 32 :=
      toNat_ofNat_of_lt (by omega)
    rw [h1]
    simp only [Char.toLower, hval]
    rw [if_neg (by omega)]
  · have h1 : Char.toLower c = c := by
      simp only [Char.toLower]
      rw [if_neg h]
    rw [h1, h1]

theorem mem_splitGo_chars (sep : List Char) :
    ∀ (l : List Char) (skip : Nat) (w : List Char),
      w ∈ splitGo sep l skip → ∀ c ∈ w, c ∈ l
  | [], skip, w, hw => by
    intro c hc
    simp [splitGo] at hw
    subst hw
    simp at hc
  | d :: rest, skip + 1, w, hw => fun c hc =>
    List.mem_cons_of_mem d (mem_splitGo_chars sep rest skip w hw c hc)
  | d :: rest, 0, w, hw => by
    intro c hc
    rw [splitGo] at hw
    split at hw
    · rcases List.mem_cons.mp hw with rfl | hw2
      · simp at hc
      · exact List.mem_cons_of_mem d
          (mem_splitGo_chars sep rest (sep.length - 1) w hw2 c hc)
    · rcases hsplit : splitGo sep rest 0 with _ | ⟨v, vs⟩
      · rw [hsplit] at hw
        simp at hw
        subst hw
        rcases List.mem_singleton.mp hc with rfl
        exact List.mem_cons_self c rest
      · rw [hsplit] at hw
        rcases List.mem_cons.mp hw with rfl | hw2
        · rcases List.mem_cons.mp hc with rfl | hc2
          · exact List.mem_cons_self c rest
          · have hv : v ∈ splitGo sep rest 0 := by
              rw [hsplit]
              exact List.mem_cons_self v vs
            exact List.mem_cons_of_mem d
              (mem_splitGo_chars sep rest 0 v hv c hc2)
        · have hwval : w ∈ splitGo sep rest 0 := by
            rw [hsplit]
            exact List.mem_cons_of_mem v hw2
          exact List.mem_cons_of_mem d
            (mem_splitGo_chars sep rest 0 w hwval c hc)

theorem mem_collapseWsGo :
    ∀ (b : Bool) (l : List Char), ∀ c ∈ collapseWsGo b l, c ∈ l ∨ c = ' '
  | _, [], c, hc => by simp [collapseWsGo] at hc
  | b, [d], c, hc => by
    have heq : collapseWsGo b [d] =
        if jsWs d then (if b then [] else [d]) else [d] := by
      cases b <;> simp [collapseWsGo]
    rw [heq] at hc
    split at hc
    · split at hc
      · simp at hc
      · exact Or.inl hc
    · exact Or.inl hc
  | true, d :: e :: rest, c, hc => by
    have heq : collapseWsGo true (d :: e :: rest) =
        if jsWs d then collapseWsGo true (e :: rest)
        else d :: collapseWsGo false (e :: rest) := rfl
    rw [heq] at hc
    split at hc
    · rcases mem_collapseWsGo true (e :: rest) c hc with h | h
      · exact Or.inl (List.mem_cons_of_mem d h)
      · exact Or.inr h
    · rcases List.mem_cons.mp hc with rfl | hc2
      · exact Or.inl (List.mem_cons_self c _)
      · rcases mem_collapseWsGo false (e :: rest) c hc2 with h | h
        · exact Or.inl (List.mem_cons_of_mem d h)
        · exact Or.inr h
  | false, d :: e :: rest, c, hc => by
    have heq : collapseWsGo false (d :: e :: rest) =
        if jsWs d then
          (if jsWs e then ' ' :: collapseWsGo true (e :: rest)
           else d :: collapseWsGo false (e :: rest))
        else d :: collapseWsGo false (e :: rest) := rfl
    rw [heq] at hc
    split at hc
    · split at hc
      · rcases List.mem_cons.mp hc with rfl | hc2
        · exact Or.inr rfl
        · rcases mem_collapseWsGo true (e :: rest) c hc2 with h | h
          · exact Or.inl (List.mem_cons_of_mem d h)
          · exact Or.inr h
      · rcases List.mem_cons.mp hc with rfl | hc2
        · exact Or.inl (List.mem_cons_self c _)
        · rcases mem_collapseWsGo false (e :: rest) c hc2 with h | h
          · exact Or.inl (List.mem_cons_of_mem d h)
          · exact Or.inr h
    · rcases List.mem_cons.mp hc with rfl | hc2
      · exact Or.inl (List.mem_cons_self c _)
      · rcases mem_collapseWsGo false (e :: rest) c hc2 with h | h
        · exact Or.inl (List.mem_cons_of_mem d h)
        · exact Or.inr h

theorem mem_processedText_lower (jd : List Char) :
    ∀ c ∈ processedText jd, Char.toLower c = c := by
  intro c hc
  rw [processedText, collapseWs] at hc
  rcases mem_collapseWsGo false _ c hc with h | h
  · have h2 : c ∈ lowerL jd := (List.filter_sublist _).subset h
    obtain ⟨d, _, rfl⟩ := List.mem_map.mp h2
    exact toLower_toLower d
  · subst h
    decide

theorem dedupFirst_subset :
    ∀ l : List (List Char), ∀ w ∈ dedupFirst l, w ∈ l
  | [], w, hw => by simp [dedupFirst] at hw
  | a :: l, w, hw => by
    rw [dedupFirst] at hw
    rcases List.mem_cons.mp hw with rfl | hw2
    · exact List.mem_cons_self w l
    · exact List.mem_cons_of_mem a
        (dedupFirst_subset l w ((List.filter_sublist _).subset hw2))

theorem dedupFirst_nodup : ∀ l : List (List Char), (dedupFirst l).Nodup
  | [] => List.Pairwise.nil
  | a :: l => by
    rw [dedupFirst, List.nodup_cons]
    constructor
    · intro hmem
      have := (List.mem_filter.mp hmem).2
      simp at this
    · exact (dedupFirst_nodup l).filter _

theorem mem_objectKeys (jd : List Char) :
    ∀ w ∈ objectKeys jd, w ∈ filteredWords jd := by
  intro w hw
  rw [objectKeys] at hw
  rcases List.mem_append.mp hw with h | h
  · have h2 := (sortAsc_perm digitsToNat _).subset h
    exact dedupFirst_subset _ w ((List.filter_sublist _).subset h2)
  · exact dedupFirst_subset _ w ((List.filter_sublist _).subset h)

theorem objectKeys_nodup (jd : List Char) : (objectKeys jd).Nodup := by
  rw [objectKeys, List.nodup_append]
  refine ⟨?_, ?_, ?_⟩
  · exact ((sortAsc_perm digitsToNat _).nodup_iff).mpr
      ((dedupFirst_nodup _).filter _)
  · exact (dedupFirst_nodup _).filter _
  · intro x hx hx2
    have h1 := (List.mem_filter.mp ((sortAsc_perm digitsToNat _).subset hx)).2
    have h2 := (List.mem_filter.mp hx2).2
    rw [h1] at h2
    simp at h2

theorem extractKeywords_eq_take (jd : List Char) :
    extractKeywords jd =
      ((sortDesc (fun e : List Char × Nat => e.2)
          ((objectKeys jd).map (fun w => (w, wordFreq jd w)))).map
        (fun e => e.1)).take 15 := by
  rw [extractKeywords, List.map_take]

theorem sorted_entries_map_perm (jd : List Char) :
    List.Perm
      ((sortDesc (fun e : List Char × Nat => e.2)
          ((objectKeys jd).map (fun w => (w, wordFreq jd w)))).map
        (fun e => e.1))
      (objectKeys jd) := by
  have hperm := (sortDesc_perm (fun e : List Char × Nat => e.2)
      ((objectKeys jd).map (fun w => (w, wordFreq jd w)))).map
        (fun e : List Char × Nat => e.1)
  rw [List.map_map] at hperm
  have hid : ((fun e : List Char × Nat => e.1) ∘
      fun w => (w, wordFreq jd w)) = id := rfl
  rw [hid, List.map_id] at hperm
  exact hperm

theorem mem_extractKeywords_filteredWords (jd : List Char) :
    ∀ w ∈ extractKeywords jd, w ∈ filteredWords jd := by
  intro w hw
  rw [extractKeywords_eq_take] at hw
  have h1 := List.take_subset 15 _ hw
  exact mem_objectKeys jd w ((sorted_entries_map_perm jd).subset h1)

/-- C4: for every input string, `extractKeywords` returns at most fifteen
entries, with no duplicates, and every entry is lowercase (fixed by
character-wise lowercasing), has length strictly greater than three, and
is not a stop word. -/
theorem extractKeywords_wellformed (jd : List Char) :
    (extractKeywords jd).length ≤ 15 ∧ (extractKeywords jd).Nodup ∧
      ∀ w, w ∈ extractKeywords jd →
        lowerL w = w ∧ 3 < w.length ∧ ¬ w ∈ commonWords := by
  refine ⟨?_, ?_, ?_⟩
  · rw [extractKeywords_eq_take, List.length_take]
    omega
  · rw [extractKeywords_eq_take]
    apply List.Nodup.sublist (List.take_sublist 15 _)
    exact ((sorted_entries_map_perm jd).nodup_iff).mpr (objectKeys_nodup jd)
  · intro w hw
    have hw1 := mem_extractKeywords_filteredWords jd w hw
    have hfilter := (List.mem_filter.mp hw1).2
    have h3 : 3 < w.length := by
      have := (Bool.and_eq_true _ _).mp hfilter
      exact of_decide_eq_true this.1
    have hcw : ¬ w ∈ commonWords := by
      have := (Bool.and_eq_true _ _).mp hfilter
      intro hmem
      have hcontains : commonWords.contains w = true := by
        have : w ∈ commonWords := hmem
        rw [← List.elem_iff] at this
        exact this
      rw [hcontains] at this
      simp at this
    have hlower : lowerL w = w := by
      have hwords : w ∈ wordsOf jd := (List.filter_sublist _).subset hw1
      rw [wordsOf, splitOnL] at hwords
      have hchars := mem_splitGo_chars [' '] (processedText jd) 0 w hwords
      rw [lowerL]
      have hfix : ∀ c ∈ w, Char.toLower c = c := fun c hc =>
        mem_processedText_lower jd c (hchars c hc)
      calc w.map Char.toLower = w.map id := List.map_congr_left hfix
        _ = w := List.map_id w
    exact ⟨hlower, h3, hcw⟩

/-- C6 counterexample: in `9999 aaaa 1234` all three tokens have frequency
one and first occur in the order `9999`, `aaaa`, `1234`, yet
`extractKeywords` returns `1234` before `9999`: property keys that are
canonical array-index strings are enumerated numerically, not in
first-occurrence order, so the tie is not broken by first occurrence. -/
theorem extractKeywords_tie_counterexample :
    extractKeywords (("9999 aaaa 1234").data) =
        [("1234").data, ("9999").data, ("aaaa").data] ∧
      filteredWords (("9999 aaaa 1234").data) =
        [("9999").data, ("aaaa").data, ("1234").data] ∧
      wordFreq (("9999 aaaa 1234").data) (("9999").data) =
        wordFreq (("9999 aaaa 1234").data) (("1234").data) := by
  refine ⟨by decide, by decide, by decide⟩

/-- C6 amended: the keyword list is ordered by non-increasing frequency,
and keywords of equal frequency appear in the enumeration order of the
frequency-object keys (canonical array-index tokens first, in ascending
numeric order, then the remaining tokens in first-occurrence order): for
every frequency, the keywords of that frequency form a prefix of the keys
of that frequency in enumeration order. -/
theorem extractKeywords_order (jd : List Char) :
    (extractKeywords jd).Pairwise
        (fun a b => wordFreq jd b ≤ wordFreq jd a) ∧
      ∀ c, (extractKeywords jd).filter (fun w => wordFreq jd w == c) <+:
        (objectKeys jd).filter (fun w => wordFreq jd w == c) := by
  constructor
  · rw [extractKeywords_eq_take]
    apply List.Pairwise.sublist (List.take_sublist 15 _)
    exact sortDesc_pairs_pairwise (wordFreq jd) (objectKeys jd)
  · intro c
    rw [extractKeywords_eq_take]
    have htp : ((sortDesc (fun e : List Char × Nat => e.2)
        ((objectKeys jd).map (fun w => (w, wordFreq jd w)))).map
          (fun e => e.1)).take 15 <+:
        (sortDesc (fun e : List Char × Nat => e.2)
          ((objectKeys jd).map (fun w => (w, wordFreq jd w)))).map
            (fun e => e.1) :=
      ⟨((sortDesc (fun e : List Char × Nat => e.2)
          ((objectKeys jd).map (fun w => (w, wordFreq jd w)))).map
            (fun e => e.1)).drop 15,
        List.take_append_drop 15 _⟩
    have hpref := htp.filter (fun w => wordFreq jd w == c)
    rwa [sortDesc_pairs_filter (wordFreq jd) (objectKeys jd) c] at hpref

/-- C8 counterexample: the section `- ABC` begins with a dash-space but is
also equal to its own uppercasing, and the all-caps check of
`convertToMarkdown` runs first, so the section becomes a heading instead
of being passed through unchanged as a list item. -/
theorem convertToMarkdown_dash_caps_counterexample :
    convertToMarkdown (("- ABC").data) = ("# - ABC\n\n").data ∧
      convertToMarkdown (("- ABC").data) ≠ ("- ABC\n\n").data := by
  refine ⟨by decide, by decide⟩

/-- C8 amended: `convertToMarkdown` emits the trimmed section text; a
section whose trimmed text equals its own uppercasing (and is non-empty)
becomes a level-1 heading at split index 0 and a level-2 heading at any
later index, and a section whose trimmed text begins with dash-space and
is NOT equal to its own uppercasing is passed through unchanged as a list
item. -/
theorem mdChunk_rules (i : Nat) (raw : List Char) :
    (upperL (trimL raw) = trimL raw → trimL raw ≠ [] →
        mdChunk i raw =
          (if i = 0 then '#' :: ' ' :: trimL raw
           else '#' :: '#' :: ' ' :: trimL raw) ++ ['\n', '\n']) ∧
      (¬ upperL (trimL raw) = trimL raw →
        ['-', ' '].isPrefixOf (trimL raw) = true →
        mdChunk i raw = trimL raw ++ ['\n', '\n']) := by
  constructor
  · intro hupper hne
    rw [mdChunk]
    rw [if_neg (by simp [List.isEmpty_iff, hne]),
      if_pos (by simp [hupper, List.isEmpty_iff, hne])]
    by_cases hi : i = 0 <;> simp [hi]
  · intro hupper hpre
    have hne : trimL raw ≠ [] := by
      intro hnil
      rw [hnil] at hpre
      simp [List.isPrefixOf] at hpre
    rw [mdChunk]
    rw [if_neg (by simp [List.isEmpty_iff, hne]),
      if_neg (by simp [hupper]), if_pos hpre]

/-- A single résumé section of 1501 characters, exceeding the budget. -/
def bigSection : List Char := List.replicate 1501 'a'

theorem selectSections_keyword_match_witness :
    (∃ k, k ∈ [("abcd").data] ∧
        includesL (lowerL k) (lowerL (("abcd efgh").data)) = true) ∧
      selectSections (("zzzz").data) [("abcd").data] = [] := by
  constructor
  · exact (selectSections_keyword_match (("abcd efgh\n\nzzzz").data)
      [("abcd").data]).1 (("abcd efgh").data) (by decide)
  · exact (selectSections_keyword_match (("zzzz").data)
      [("abcd").data]).2.2 (by decide)

theorem splitGo_no_sep (sep : List Char) (hd : Char)
    (hsep : sep.head? = some hd) :
    ∀ l : List Char, (∀ c ∈ l, c ≠ hd) → splitGo sep l 0 = [l]
  | [], _ => rfl
  | c :: rest, hno => by
    have hcne : c ≠ hd := hno c (List.mem_cons_self c rest)
    have hpre : sep.isPrefixOf (c :: rest) = false := by
      cases sep with
      | nil => simp at hsep
      | cons s0 stail =>
        have : s0 = hd := by simpa using hsep
        subst this
        simp [List.isPrefixOf_cons₂]
        intro hch
        exact absurd hch.symm hcne
    rw [splitGo]
    rw [if_neg (by simp [hpre])]
    rw [splitGo_no_sep sep hd hsep rest
      (fun d hdm => hno d (List.mem_cons_of_mem c hdm))]

theorem bigSection_eq_cons :
    bigSection = 'a' :: 'a' :: 'a' :: 'a' :: List.replicate 1497 'a' := by
  rw [bigSection, show (1501 : Nat) = 4 + 1497 from rfl, List.replicate_add]
  rfl

theorem lowerL_bigSection : lowerL bigSection = bigSection := by
  rw [bigSection, lowerL, List.map_replicate]
  rfl

theorem includesL_bigSection :
    includesL (lowerL (("aaaa").data)) (lowerL bigSection) = true := by
  have hk : lowerL (("aaaa").data) = ("aaaa").data := by decide
  rw [hk, lowerL_bigSection, bigSection_eq_cons]
  show (List.isPrefixOf (("aaaa").data)
      ('a' :: 'a' :: 'a' :: 'a' :: List.replicate 1497 'a') ||
    includesL (("aaaa").data)
      ('a' :: 'a' :: 'a' :: List.replicate 1497 'a')) = true
  have hpre : List.isPrefixOf (("aaaa").data)
      ('a' :: 'a' :: 'a' :: 'a' :: List.replicate 1497 'a') = true := by
    show List.isPrefixOf ['a', 'a', 'a', 'a']
        ('a' :: 'a' :: 'a' :: 'a' :: List.replicate 1497 'a') = true
    rw [List.isPrefixOf_cons₂, List.isPrefixOf_cons₂, List.isPrefixOf_cons₂,
      List.isPrefixOf_cons₂]
    simp
  rw [hpre, Bool.true_or]

theorem relevant_bigSection :
    relevantSectionsOf bigSection [("aaaa").data] = [bigSection] := by
  rw [relevantSectionsOf, splitOnL,
    splitGo_no_sep ['
', '
'] '
' rfl bigSection ?hno]
  case hno =>
    intro c hc
    rw [bigSection] at hc
    rw [List.eq_of_mem_replicate hc]
    decide
  simp only [List.filter_cons, List.filter_nil, List.any_cons, List.any_nil,
    Bool.or_false]
  have h := includesL_bigSection
  simp at h
  simp [h]

theorem sortedSections_singleton (x : List Char) (ks : List (List Char)) :
    sortedSections [x] ks = [x] := rfl

theorem selectSections_at_least_one_witness :
    selectSections bigSection [("aaaa").data] ≠ [] ∧
      selectSections bigSection [("aaaa").data] = [bigSection] := by
  have h := selectSections_at_least_one bigSection [("aaaa").data]
    (by rw [relevant_bigSection]; simp)
  refine ⟨h.1, h.2 bigSection [] ?_ ?_⟩
  · rw [relevant_bigSection]
    exact sortedSections_singleton bigSection [("aaaa").data]
  · rw [bigSection, List.length_replicate]
    omega

theorem selectSections_submultiset_witness :
    ("abcd efgh").data ∈ splitOnL ['\n', '\n'] (("abcd efgh\n\nzzzz").data) := by
  exact (selectSections_submultiset (("abcd efgh\n\nzzzz").data)
    [("abcd").data]).1 (("abcd efgh").data) (by decide)

theorem mdChunk_rules_witness :
    mdChunk 0 (("SKILLS").data) = ("# SKILLS\n\n").data ∧
      mdChunk 3 (("SKILLS").data) = ("## SKILLS\n\n").data ∧
      mdChunk 2 (("- led team").data) = ("- led team\n\n").data := by
  refine ⟨?_, ?_, ?_⟩
  · have h := (mdChunk_rules 0 (("SKILLS").data)).1 (by decide) (by decide)
    rw [h]
    decide
  · have h := (mdChunk_rules 3 (("SKILLS").data)).1 (by decide) (by decide)
    rw [h]
    decide
  · have h := (mdChunk_rules 2 (("- led team").data)).2 (by decide) (by decide)
    rw [h]
    decide

theorem extractKeywords_wellformed_witness :
    lowerL (("software").data) = ("software").data ∧
      3 < (("software").data).length ∧ ¬ ("software").data ∈ commonWords :=
  (extractKeywords_wellformed (("software engineer software").data)).2.2
    (("software").data) (by decide)
